import Mathlib

/-!
Verification of the simple BDD apply engine
(`crates/oxidd-rules-bdd/src/simple/apply_rec_st.rs`).

Edges are modelled as trees: thanks to the node store's strong
canonicalization invariant (two inner nodes with the same
`(level, then_child, else_child)` triple are the same node), node identity
coincides with structural equality of the unfolded tree, so `Tree` equality
models edge/node identity.  Terminals ⊤/⊥ are `leaf true` / `leaf false`.
The apply cache, where a claim speaks about it, is threaded explicitly as an
association list; elsewhere the always-miss execution is embedded (the spec's
"apply cache is a hint" invariant: dropping any subset of entries must not
change the function represented by any live edge).
-/

namespace OxiddBDD

/-- A BDD edge: either a terminal (⊤ = `leaf true`, ⊥ = `leaf false`) or an
inner node `(level, then_child, else_child)`. -/
inductive Tree where
  | leaf (b : Bool)
  | node (level : Nat) (thenC elseC : Tree)
deriving DecidableEq, Repr

/-- Number of nodes, used as a termination measure. -/
def Tree.size : Tree → Nat
  | .leaf _ => 1
  | .node _ t e => t.size + e.size + 1

theorem Tree.size_pos (f : Tree) : 1 ≤ f.size := by
  cases f <;> simp [Tree.size]

/-- Whether the edge refers to an inner node. -/
def Tree.isInner : Tree → Bool
  | .leaf _ => false
  | .node .. => true

/-- Level of the root node; only meaningful for inner nodes (the source only
calls `level()` on inner nodes). -/
def Tree.level : Tree → Nat
  | .leaf _ => 0
  | .node l _ _ => l

/-- Evaluation of an edge under a total assignment `a` of levels to Booleans.
This mirrors the tail-recursive walk inside `eval_edge`: at an inner node take
`child(0)` (then) if the assigned value is true, `child(1)` (else) otherwise;
at a terminal return its value. -/
def evalA (a : Nat → Bool) : Tree → Bool
  | .leaf b => b
  | .node l t e => if a l then evalA a t else evalA a e

/-- Modelled from the spec: `super::reduce` is not under `src/`.  Per §4.1 and
§3 (Lifecycle): `reduce(level, t, e)`: if `t == e` return `t`; else intern
`(level, t, e)`.  The `operator_tag` argument is informational only and is
omitted. -/
def reduce (level : Nat) (t e : Tree) : Tree :=
  if t = e then t else .node level t e

/-- Recursively apply the 'not' operator to `f` (source `apply_not`):
terminals flip; inner nodes recurse on both children and `reduce`. -/
def apply_not : Tree → Tree
  | .leaf b => .leaf (!b)
  | .node l t e => reduce l (apply_not t) (apply_not e)

/-- The binary operators of `apply_bin`'s `const OP` parameter. -/
inductive BinOp where
  | and | or | nand | nor | xor | equiv | imp | impStrict
deriving DecidableEq, Repr

/-- Truth table of each binary operator. -/
def BinOp.sem : BinOp → Bool → Bool → Bool
  | .and, x, y => x && y
  | .or, x, y => x || y
  | .nand, x, y => !(x && y)
  | .nor, x, y => !(x || y)
  | .xor, x, y => Bool.xor x y
  | .equiv, x, y => x == y
  | .imp, x, y => !x || y
  | .impStrict, x, y => !x && y

/-- Result of the terminal-case analysis of a binary operator (source
`Operation`).  The `Binary` payload (possibly swapped operands) is only used
for the cache key in the source and is dropped here. -/
inductive Operation where
  | done (r : Tree)
  | notOf (x : Tree)
  | binary
deriving DecidableEq, Repr

/-- Modelled from the spec: `super::terminal_bin` is not under `src/`.
Per §4.4.2, each binary operator has a terminal table of the form
`f OP g → ...` where either operand is a terminal, reducing to a clone, a
negation, or the other operand (e.g. `and(f,⊤)=f`, §4.4.1-style identities). -/
def terminal_bin : BinOp → Tree → Tree → Operation
  | .and, .leaf true, g => .done g
  | .and, .leaf false, _ => .done (.leaf false)
  | .and, f, .leaf true => .done f
  | .and, _, .leaf false => .done (.leaf false)
  | .and, _, _ => .binary
  | .or, .leaf true, _ => .done (.leaf true)
  | .or, .leaf false, g => .done g
  | .or, _, .leaf true => .done (.leaf true)
  | .or, f, .leaf false => .done f
  | .or, _, _ => .binary
  | .nand, .leaf true, g => .notOf g
  | .nand, .leaf false, _ => .done (.leaf true)
  | .nand, f, .leaf true => .notOf f
  | .nand, _, .leaf false => .done (.leaf true)
  | .nand, _, _ => .binary
  | .nor, .leaf true, _ => .done (.leaf false)
  | .nor, .leaf false, g => .notOf g
  | .nor, _, .leaf true => .done (.leaf false)
  | .nor, f, .leaf false => .notOf f
  | .nor, _, _ => .binary
  | .xor, .leaf true, g => .notOf g
  | .xor, .leaf false, g => .done g
  | .xor, f, .leaf true => .notOf f
  | .xor, f, .leaf false => .done f
  | .xor, _, _ => .binary
  | .equiv, .leaf true, g => .done g
  | .equiv, .leaf false, g => .notOf g
  | .equiv, f, .leaf true => .done f
  | .equiv, f, .leaf false => .notOf f
  | .equiv, _, _ => .binary
  | .imp, .leaf false, _ => .done (.leaf true)
  | .imp, .leaf true, g => .done g
  | .imp, _, .leaf true => .done (.leaf true)
  | .imp, f, .leaf false => .notOf f
  | .imp, _, _ => .binary
  | .impStrict, .leaf true, _ => .done (.leaf false)
  | .impStrict, .leaf false, g => .done g
  | .impStrict, _, .leaf false => .done (.leaf false)
  | .impStrict, f, .leaf true => .notOf f
  | .impStrict, _, _ => .binary

theorem terminal_bin_node_node (op : BinOp) (fl : Nat) (ft fe : Tree)
    (gl : Nat) (gt ge : Tree) :
    terminal_bin op (.node fl ft fe) (.node gl gt ge) = .binary := by
  cases op <;> rfl

/-- Cofactors of an operand with respect to a pivot level (source: `if flevel
== level { collect_children(fnode) } else { (f, f) }`). -/
def cofs (l : Nat) : Tree → Tree × Tree
  | .leaf b => (.leaf b, .leaf b)
  | .node l' t e => if l' = l then (t, e) else (.node l' t e, .node l' t e)

theorem cofs_fst_size_le (l : Nat) (f : Tree) : (cofs l f).1.size ≤ f.size := by
  cases f with
  | leaf b => simp [cofs]
  | node l' t e =>
    simp only [cofs]
    split
    · simp [Tree.size]; omega
    · simp

theorem cofs_snd_size_le (l : Nat) (f : Tree) : (cofs l f).2.size ≤ f.size := by
  cases f with
  | leaf b => simp [cofs]
  | node l' t e =>
    simp only [cofs]
    split
    · simp [Tree.size]; omega
    · simp

theorem cofs_fst_size_lt (l : Nat) (t e : Tree) :
    (cofs l (.node l t e)).1.size < (Tree.node l t e).size := by
  simp [cofs, Tree.size]
  omega

theorem cofs_snd_size_lt (l : Nat) (t e : Tree) :
    (cofs l (.node l t e)).2.size < (Tree.node l t e).size := by
  simp [cofs, Tree.size]
  omega

/-- Dispatch on the result of the terminal-case analysis (the
`match super::terminal_bin::<M, OP>(manager, &f, &g)` at the head of the
source `apply_bin`); `k` is the continuation used in the `Binary` case. -/
def applyTerminal (op : BinOp) (f g : Tree) (k : Tree) : Tree :=
  match terminal_bin op f g with
  | .done r => r
  | .notOf x => apply_not x
  | .binary => k

/-- Recursively apply a binary operator (source `apply_bin`), as the
always-miss (cache-free) execution: terminal-case analysis, pivot at the
minimum top level, cofactor expansion, two recursive calls, `reduce`.
The `Binary` continuation is only reached with two inner operands
(`terminal_bin_node_node`); its fallback arm is unreachable. -/
def apply_bin (op : BinOp) (f g : Tree) : Tree :=
  applyTerminal op f g
    (match f, g with
     | .node fl ft fe, .node gl gt ge =>
       let l := min fl gl
       let fc := cofs l (.node fl ft fe)
       let gc := cofs l (.node gl gt ge)
       reduce l (apply_bin op fc.1 gc.1) (apply_bin op fc.2 gc.2)
     | _, _ => .leaf false)
termination_by f.size + g.size
decreasing_by
  · rcases Nat.le_total fl gl with hle | hle
    · rw [Nat.min_eq_left hle]
      have h1 := cofs_fst_size_lt fl ft fe
      have h2 := cofs_fst_size_le fl (Tree.node gl gt ge)
      omega
    · rw [Nat.min_eq_right hle]
      have h1 := cofs_fst_size_le gl (Tree.node fl ft fe)
      have h2 := cofs_fst_size_lt gl gt ge
      omega
  · rcases Nat.le_total fl gl with hle | hle
    · rw [Nat.min_eq_left hle]
      have h1 := cofs_snd_size_lt fl ft fe
      have h2 := cofs_snd_size_le fl (Tree.node gl gt ge)
      omega
    · rw [Nat.min_eq_right hle]
      have h1 := cofs_snd_size_le gl (Tree.node fl ft fe)
      have h2 := cofs_snd_size_lt gl gt ge
      omega

/-- Recursively apply the if-then-else operator (source `apply_ite`), as the
always-miss (cache-free) execution.  The cascade of terminal short-circuits
mirrors the source exactly, including its order. -/
def apply_ite (f g h : Tree) : Tree :=
  if g = h then g
  else if f = g then apply_bin .or f h
  else if f = h then apply_bin .and f g
  else
    match f, g, h with
    | .leaf fb, g, h => if fb then g else h
    | f, .leaf gb, .node hl ht he =>
      if gb then apply_bin .or f (.node hl ht he)
      else apply_bin .impStrict f (.node hl ht he)
    | f, .node gl gt ge, .leaf hb =>
      if hb then apply_bin .imp f (.node gl gt ge)
      else apply_bin .and f (.node gl gt ge)
    | f, .leaf gb, .leaf _ => if gb then f else apply_not f
    | .node fl ft fe, .node gl gt ge, .node hl ht he =>
      let l := min (min fl gl) hl
      let fc := cofs l (.node fl ft fe)
      let gc := cofs l (.node gl gt ge)
      let hc := cofs l (.node hl ht he)
      reduce l (apply_ite fc.1 gc.1 hc.1) (apply_ite fc.2 gc.2 hc.2)
termination_by f.size + g.size + h.size
decreasing_by
  · have hmin : min (min fl gl) hl = fl ∨ min (min fl gl) hl = gl ∨
        min (min fl gl) hl = hl := by omega
    rcases hmin with hm | hm | hm <;> rw [hm]
    · have h1 := cofs_fst_size_lt fl ft fe
      have h2 := cofs_fst_size_le fl (Tree.node gl gt ge)
      have h3 := cofs_fst_size_le fl (Tree.node hl ht he)
      omega
    · have h1 := cofs_fst_size_le gl (Tree.node fl ft fe)
      have h2 := cofs_fst_size_lt gl gt ge
      have h3 := cofs_fst_size_le gl (Tree.node hl ht he)
      omega
    · have h1 := cofs_fst_size_le hl (Tree.node fl ft fe)
      have h2 := cofs_fst_size_le hl (Tree.node gl gt ge)
      have h3 := cofs_fst_size_lt hl ht he
      omega
  · have hmin : min (min fl gl) hl = fl ∨ min (min fl gl) hl = gl ∨
        min (min fl gl) hl = hl := by omega
    rcases hmin with hm | hm | hm <;> rw [hm]
    · have h1 := cofs_snd_size_lt fl ft fe
      have h2 := cofs_snd_size_le fl (Tree.node gl gt ge)
      have h3 := cofs_snd_size_le fl (Tree.node hl ht he)
      omega
    · have h1 := cofs_snd_size_le gl (Tree.node fl ft fe)
      have h2 := cofs_snd_size_lt gl gt ge
      have h3 := cofs_snd_size_le gl (Tree.node hl ht he)
      omega
    · have h1 := cofs_snd_size_le hl (Tree.node fl ft fe)
      have h2 := cofs_snd_size_le hl (Tree.node gl gt ge)
      have h3 := cofs_snd_size_lt hl ht he
      omega

theorem evalA_reduce (a : Nat → Bool) (l : Nat) (t e : Tree) :
    evalA a (reduce l t e) = if a l then evalA a t else evalA a e := by
  unfold reduce
  split
  · subst t
    split <;> rfl
  · rfl

theorem evalA_apply_not (a : Nat → Bool) (f : Tree) :
    evalA a (apply_not f) = !evalA a f := by
  induction f with
  | leaf b => rfl
  | node l t e iht ihe =>
    simp only [apply_not, evalA_reduce, evalA, iht, ihe]
    split <;> rfl

theorem cofs_fst_evalA (a : Nat → Bool) (l : Nat) (f : Tree) (h : a l = true) :
    evalA a (cofs l f).1 = evalA a f := by
  cases f with
  | leaf b => rfl
  | node l' t e =>
    simp only [cofs]
    split
    · subst l'
      simp [evalA, h]
    · rfl

theorem cofs_snd_evalA (a : Nat → Bool) (l : Nat) (f : Tree) (h : a l = false) :
    evalA a (cofs l f).2 = evalA a f := by
  cases f with
  | leaf b => rfl
  | node l' t e =>
    simp only [cofs]
    split
    · subst l'
      simp [evalA, h]
    · rfl

theorem terminal_bin_done_evalA (op : BinOp) (f g r : Tree) (a : Nat → Bool)
    (h : terminal_bin op f g = .done r) :
    evalA a r = op.sem (evalA a f) (evalA a g) := by
  cases op <;>
    rcases f with ⟨_ | _⟩ | ⟨fl, ft, fe⟩ <;>
    rcases g with ⟨_ | _⟩ | ⟨gl, gt, ge⟩ <;>
    first
      | (injection h with h; subst h; simp [BinOp.sem, evalA])
      | injection h

theorem terminal_bin_notOf_evalA (op : BinOp) (f g x : Tree) (a : Nat → Bool)
    (h : terminal_bin op f g = .notOf x) :
    (!evalA a x) = op.sem (evalA a f) (evalA a g) := by
  cases op <;>
    rcases f with ⟨_ | _⟩ | ⟨fl, ft, fe⟩ <;>
    rcases g with ⟨_ | _⟩ | ⟨gl, gt, ge⟩ <;>
    first
      | (injection h with h; subst h; simp [BinOp.sem, evalA])
      | injection h

theorem applyTerminal_done {op : BinOp} {f g r : Tree} (k : Tree)
    (h : terminal_bin op f g = .done r) : applyTerminal op f g k = r := by
  rw [applyTerminal, h]

theorem applyTerminal_notOf {op : BinOp} {f g x : Tree} (k : Tree)
    (h : terminal_bin op f g = .notOf x) :
    applyTerminal op f g k = apply_not x := by
  rw [applyTerminal, h]

theorem applyTerminal_binary {op : BinOp} {f g : Tree} (k : Tree)
    (h : terminal_bin op f g = .binary) : applyTerminal op f g k = k := by
  rw [applyTerminal, h]

theorem apply_bin_eq_done {op : BinOp} {f g r : Tree}
    (h : terminal_bin op f g = .done r) : apply_bin op f g = r := by
  rw [apply_bin.eq_def]
  exact applyTerminal_done _ h

theorem apply_bin_eq_notOf {op : BinOp} {f g x : Tree}
    (h : terminal_bin op f g = .notOf x) : apply_bin op f g = apply_not x := by
  rw [apply_bin.eq_def]
  exact applyTerminal_notOf _ h

theorem apply_bin_node_node (op : BinOp) (fl : Nat) (ft fe : Tree)
    (gl : Nat) (gt ge : Tree) :
    apply_bin op (.node fl ft fe) (.node gl gt ge) =
      reduce (min fl gl)
        (apply_bin op (cofs (min fl gl) (.node fl ft fe)).1
          (cofs (min fl gl) (.node gl gt ge)).1)
        (apply_bin op (cofs (min fl gl) (.node fl ft fe)).2
          (cofs (min fl gl) (.node gl gt ge)).2) := by
  rw [apply_bin]
  exact applyTerminal_binary _ (terminal_bin_node_node op fl ft fe gl gt ge)

theorem terminal_bin_leaf_left (op : BinOp) (b : Bool) (g : Tree) :
    terminal_bin op (.leaf b) g ≠ .binary := by
  cases op <;> cases b <;> rcases g with ⟨_ | _⟩ | ⟨gl, gt, ge⟩ <;>
    simp [terminal_bin]

theorem terminal_bin_leaf_right (op : BinOp) (f : Tree) (b : Bool) :
    terminal_bin op f (.leaf b) ≠ .binary := by
  cases op <;> cases b <;> rcases f with ⟨_ | _⟩ | ⟨fl, ft, fe⟩ <;>
    simp [terminal_bin]

theorem evalA_apply_bin (op : BinOp) (f g : Tree) (a : Nat → Bool) :
    evalA a (apply_bin op f g) = op.sem (evalA a f) (evalA a g) := by
  suffices H : ∀ n (f g : Tree), f.size + g.size = n →
      evalA a (apply_bin op f g) = op.sem (evalA a f) (evalA a g) by
    exact H _ f g rfl
  intro n
  induction n using Nat.strong_induction_on with
  | _ n ih =>
    intro f g hn
    cases htb : terminal_bin op f g with
    | done r => rw [apply_bin_eq_done htb]; exact terminal_bin_done_evalA op f g r a htb
    | notOf x =>
      rw [apply_bin_eq_notOf htb, evalA_apply_not]
      exact terminal_bin_notOf_evalA op f g x a htb
    | binary =>
      rcases f with ⟨fb⟩ | ⟨fl, ft, fe⟩
      · exact absurd htb (terminal_bin_leaf_left op fb g)
      rcases g with ⟨gb⟩ | ⟨gl, gt, ge⟩
      · exact absurd htb (terminal_bin_leaf_right op (.node fl ft fe) gb)
      subst hn
      rw [apply_bin_node_node, evalA_reduce]
      have hmin : min fl gl = fl ∨ min fl gl = gl := by omega
      have hlt : (cofs (min fl gl) (Tree.node fl ft fe)).1.size +
          (cofs (min fl gl) (Tree.node gl gt ge)).1.size <
          (Tree.node fl ft fe).size + (Tree.node gl gt ge).size := by
        rcases hmin with hm | hm <;> rw [hm]
        · have h1 := cofs_fst_size_lt fl ft fe
          have h2 := cofs_fst_size_le fl (Tree.node gl gt ge)
          omega
        · have h1 := cofs_fst_size_le gl (Tree.node fl ft fe)
          have h2 := cofs_fst_size_lt gl gt ge
          omega
      have hlt2 : (cofs (min fl gl) (Tree.node fl ft fe)).2.size +
          (cofs (min fl gl) (Tree.node gl gt ge)).2.size <
          (Tree.node fl ft fe).size + (Tree.node gl gt ge).size := by
        rcases hmin with hm | hm <;> rw [hm]
        · have h1 := cofs_snd_size_lt fl ft fe
          have h2 := cofs_snd_size_le fl (Tree.node gl gt ge)
          omega
        · have h1 := cofs_snd_size_le gl (Tree.node fl ft fe)
          have h2 := cofs_snd_size_lt gl gt ge
          omega
      have e1 := ih _ hlt (cofs (min fl gl) (Tree.node fl ft fe)).1
        (cofs (min fl gl) (Tree.node gl gt ge)).1 rfl
      have e2 := ih _ hlt2 (cofs (min fl gl) (Tree.node fl ft fe)).2
        (cofs (min fl gl) (Tree.node gl gt ge)).2 rfl
      rw [e1, e2]
      by_cases hal : a (min fl gl) = true
      · rw [if_pos hal, cofs_fst_evalA a _ _ hal, cofs_fst_evalA a _ _ hal]
      · simp only [Bool.not_eq_true] at hal
        rw [if_neg (by rw [hal]; exact Bool.false_ne_true), cofs_snd_evalA a _ _ hal,
          cofs_snd_evalA a _ _ hal]

theorem evalA_apply_ite (f g h : Tree) (a : Nat → Bool) :
    evalA a (apply_ite f g h) =
      if evalA a f then evalA a g else evalA a h := by
  suffices H : ∀ n (f g h : Tree), f.size + g.size + h.size = n →
      evalA a (apply_ite f g h) =
        if evalA a f then evalA a g else evalA a h by
    exact H _ f g h rfl
  intro n
  induction n using Nat.strong_induction_on with
  | _ n ih =>
    intro f g h hn
    rw [apply_ite.eq_def]
    by_cases hgh : g = h
    · rw [if_pos hgh]
      subst hgh
      split <;> rfl
    rw [if_neg hgh]
    by_cases hfg : f = g
    · rw [if_pos hfg]
      subst hfg
      rw [evalA_apply_bin]
      cases hef : evalA a f <;> simp [BinOp.sem, hef]
    rw [if_neg hfg]
    by_cases hfh : f = h
    · rw [if_pos hfh]
      subst hfh
      rw [evalA_apply_bin]
      cases hef : evalA a f <;> simp [BinOp.sem, hef]
    rw [if_neg hfh]
    rcases f with ⟨fb⟩ | ⟨fl, ft, fe⟩
    · cases fb <;> simp [evalA]
    rcases g with ⟨gb⟩ | ⟨gl, gt, ge⟩ <;> rcases h with ⟨hb⟩ | ⟨hl, ht, he⟩
    · -- both `g` and `h` terminal (and distinct)
      have hbb : gb ≠ hb := fun hc => hgh (by rw [hc])
      cases gb <;> cases hb <;> first
        | exact absurd rfl hbb
        | (simp only
           cases hef : evalA a (Tree.node fl ft fe) <;>
             simp [evalA_apply_not, hef] <;> rfl)
    · -- `g` terminal, `h` inner
      cases gb <;>
        (simp only
         first
           | rw [if_pos (by decide)]
           | rw [if_neg (by decide)]
         rw [evalA_apply_bin]
         cases hef : evalA a (Tree.node fl ft fe) <;> simp [BinOp.sem, hef, evalA])
    · -- `g` inner, `h` terminal
      cases hb <;>
        (simp only
         first
           | rw [if_pos (by decide)]
           | rw [if_neg (by decide)]
         rw [evalA_apply_bin]
         cases hef : evalA a (Tree.node fl ft fe) <;> simp [BinOp.sem, hef, evalA])
    · -- all three inner: cofactor expansion at the pivot level
      simp only
      rw [evalA_reduce]
      have hmin : min (min fl gl) hl = fl ∨ min (min fl gl) hl = gl ∨
          min (min fl gl) hl = hl := by omega
      have hlt : (cofs (min (min fl gl) hl) (Tree.node fl ft fe)).1.size +
          (cofs (min (min fl gl) hl) (Tree.node gl gt ge)).1.size +
          (cofs (min (min fl gl) hl) (Tree.node hl ht he)).1.size <
          (Tree.node fl ft fe).size + (Tree.node gl gt ge).size +
          (Tree.node hl ht he).size := by
        rcases hmin with hm | hm | hm <;> rw [hm]
        · have h1 := cofs_fst_size_lt fl ft fe
          have h2 := cofs_fst_size_le fl (Tree.node gl gt ge)
          have h3 := cofs_fst_size_le fl (Tree.node hl ht he)
          omega
        · have h1 := cofs_fst_size_le gl (Tree.node fl ft fe)
          have h2 := cofs_fst_size_lt gl gt ge
          have h3 := cofs_fst_size_le gl (Tree.node hl ht he)
          omega
        · have h1 := cofs_fst_size_le hl (Tree.node fl ft fe)
          have h2 := cofs_fst_size_le hl (Tree.node gl gt ge)
          have h3 := cofs_fst_size_lt hl ht he
          omega
      have hlt2 : (cofs (min (min fl gl) hl) (Tree.node fl ft fe)).2.size +
          (cofs (min (min fl gl) hl) (Tree.node gl gt ge)).2.size +
          (cofs (min (min fl gl) hl) (Tree.node hl ht he)).2.size <
          (Tree.node fl ft fe).size + (Tree.node gl gt ge).size +
          (Tree.node hl ht he).size := by
        rcases hmin with hm | hm | hm <;> rw [hm]
        · have h1 := cofs_snd_size_lt fl ft fe
          have h2 := cofs_snd_size_le fl (Tree.node gl gt ge)
          have h3 := cofs_snd_size_le fl (Tree.node hl ht he)
          omega
        · have h1 := cofs_snd_size_le gl (Tree.node fl ft fe)
          have h2 := cofs_snd_size_lt gl gt ge
          have h3 := cofs_snd_size_le gl (Tree.node hl ht he)
          omega
        · have h1 := cofs_snd_size_le hl (Tree.node fl ft fe)
          have h2 := cofs_snd_size_le hl (Tree.node gl gt ge)
          have h3 := cofs_snd_size_lt hl ht he
          omega
      subst hn
      have e1 := ih _ hlt (cofs (min (min fl gl) hl) (Tree.node fl ft fe)).1
        (cofs (min (min fl gl) hl) (Tree.node gl gt ge)).1
        (cofs (min (min fl gl) hl) (Tree.node hl ht he)).1 rfl
      have e2 := ih _ hlt2 (cofs (min (min fl gl) hl) (Tree.node fl ft fe)).2
        (cofs (min (min fl gl) hl) (Tree.node gl gt ge)).2
        (cofs (min (min fl gl) hl) (Tree.node hl ht he)).2 rfl
      rw [e1, e2]
      by_cases hal : a (min (min fl gl) hl) = true
      · rw [if_pos hal, cofs_fst_evalA a _ _ hal, cofs_fst_evalA a _ _ hal,
          cofs_fst_evalA a _ _ hal]
      · simp only [Bool.not_eq_true] at hal
        rw [if_neg (by rw [hal]; exact Bool.false_ne_true), cofs_snd_evalA a _ _ hal,
          cofs_snd_evalA a _ _ hal, cofs_snd_evalA a _ _ hal]

/-- Modelled from the spec: `crate::set_pop` is not under `src/`.  Per §4.4.5
step 2, advance `vars` past any levels above `f`'s top level (a variable set
is a chain of positive literals, so advancing follows `child(0)`). -/
def set_pop (vars : Tree) (flevel : Nat) : Tree :=
  match vars with
  | .leaf b => .leaf b
  | .node l t e => if l < flevel then set_pop t flevel else .node l t e

/-- Compute the quantification over `vars` (source `quant`), as the
always-miss (cache-free) execution.  `q` is the underlying binary operator
(`And` for ∀, `Or` for ∃, `Xor` for ∃!); the source's `operator` equals
`Unique` iff `q` is `Xor`. -/
def quant (q : BinOp) (f vars : Tree) : Tree :=
  match f with
  | .leaf b =>
    if q ≠ .xor ∨ vars.isInner = false then .leaf b else .leaf false
  | .node fl ft fe =>
    match (if q ≠ .xor then set_pop vars fl else vars) with
    | .leaf _ => .node fl ft fe
    | .node vl vt ve =>
      if q = .xor ∧ vl < fl then .leaf false
      else
        let vt' := if vl = fl then vt else .node vl vt ve
        let t := quant q ft vt'
        let e := quant q fe vt'
        if fl = vl then apply_bin q t e else reduce fl t e

/-- Result of `restrict_inner` (source `RestrictInnerResult`): either a final
edge or the pair on which `restrict` recurses structurally. -/
inductive RIRes where
  | done (r : Tree)
  | recurse (f vars : Tree)
deriving DecidableEq, Repr

/-- Tail-recursive part of `restrict` (source `restrict_inner`): advance
`vars` down the non-⊥ branch while its level is above `f`'s; at equal levels
select `f`'s cofactor according to the literal's polarity; once `vars` lies
below `f`, hand back to `restrict` for structural recursion.  The final
catch-all (a terminal operand) is unreachable from `restrict`, which only
calls this with two inner nodes. -/
def restrict_inner (f vars : Tree) : RIRes :=
  match f, vars with
  | .node fl ft fe, .node vl vt ve =>
    if fl < vl then .recurse (.node fl ft fe) (.node vl vt ve)
    else if vl < fl then
      match vt with
      | .node wl wt we => restrict_inner (.node fl ft fe) (.node wl wt we)
      | .leaf true => .done (.node fl ft fe)
      | .leaf false =>
        match ve with
        | .node wl wt we => restrict_inner (.node fl ft fe) (.node wl wt we)
        | .leaf _ => .done (.node fl ft fe)
    else
      match vt with
      | .node wl wt we =>
        match ft with
        | .node al t1 e1 => restrict_inner (.node al t1 e1) (.node wl wt we)
        | .leaf b => .done (.leaf b)
      | .leaf true => .done ft
      | .leaf false =>
        match ve with
        | .node wl wt we =>
          match fe with
          | .node al t1 e1 => restrict_inner (.node al t1 e1) (.node wl wt we)
          | .leaf b => .done (.leaf b)
        | .leaf _ => .done fe
  | f, _ => .done f
termination_by f.size + vars.size
decreasing_by all_goals simp [Tree.size] <;> omega

/-- The source `BDDOp` operator tags, used in apply-cache keys. -/
inductive BDDOp where
  | notOp | andOp | orOp | nandOp | norOp | xorOp | equivOp | impOp
  | impStrictOp | iteOp | restrictOp | forallOp | existOp | uniqueOp
  | substituteOp
deriving DecidableEq, Repr

/-- An apply-cache key: operator tag, operand edges, optional numeric salt
(§4.3). -/
abbrev CacheKey := BDDOp × List Tree × List Nat

/-- The apply cache, modelled as an association list from keys to result
edges; the most recent `add` wins, matching `get` probing a map. -/
abbrev Cache := List (CacheKey × Tree)

/-- Probe the apply cache (`ApplyCache::get` / `get_with_numeric`). -/
def cacheGet (c : Cache) (k : CacheKey) : Option Tree :=
  (c.find? fun p => decide (p.1 = k)).map fun p => p.2

/-- Install an entry (`ApplyCache::add` / `add_with_numeric`). -/
def cacheAdd (c : Cache) (k : CacheKey) (r : Tree) : Cache :=
  (k, r) :: c

theorem restrict_inner_recurse_size :
    ∀ (f v f' v' : Tree), restrict_inner f v = .recurse f' v' →
      f'.size ≤ f.size ∧ v'.size ≤ v.size := by
  suffices H : ∀ n (f v f' v' : Tree), f.size + v.size = n →
      restrict_inner f v = .recurse f' v' →
      f'.size ≤ f.size ∧ v'.size ≤ v.size by
    intro f v f' v'
    exact H _ f v f' v' rfl
  intro n
  induction n using Nat.strong_induction_on with
  | _ n ih =>
    intro f v f' v' hn hr
    rw [restrict_inner.eq_def] at hr
    split at hr
    · split at hr
      · injection hr with h1 h2
        subst h1
        subst h2
        exact ⟨Nat.le_refl _, Nat.le_refl _⟩
      · split at hr
        · split at hr
          · have := ih _ (by subst hn; simp [Tree.size]; omega) _ _ _ _ rfl hr
            simp [Tree.size] at this ⊢
            omega
          · exact absurd hr (by simp)
          · split at hr
            · have := ih _ (by subst hn; simp [Tree.size]; omega) _ _ _ _ rfl hr
              simp [Tree.size] at this ⊢
              omega
            · exact absurd hr (by simp)
        · split at hr
          · split at hr
            · have := ih _ (by subst hn; simp [Tree.size]; omega) _ _ _ _ rfl hr
              simp [Tree.size] at this ⊢
              omega
            · exact absurd hr (by simp)
          · exact absurd hr (by simp)
          · split at hr
            · split at hr
              · have := ih _ (by subst hn; simp [Tree.size]; omega) _ _ _ _ rfl hr
                simp [Tree.size] at this ⊢
                omega
              · exact absurd hr (by simp)
            · exact absurd hr (by simp)
    · exact absurd hr (by simp)

/-- Restriction (source `restrict`), with the apply cache threaded
explicitly: on `Done` the cache is untouched; only the structural-recursion
branch probes and installs under the `Restrict` operator. -/
def restrictC (f vars : Tree) (c : Cache) : Tree × Cache :=
  match f, vars with
  | .node fl ft fe, .node vl vt ve =>
    match hri : restrict_inner (.node fl ft fe) (.node vl vt ve) with
    | .done r => (r, c)
    | .recurse f' vars' =>
      match cacheGet c (.restrictOp, [f', vars'], []) with
      | some r => (r, c)
      | none =>
        match hf : f' with
        | .node l t e =>
          let tc := restrictC t vars' c
          let ec := restrictC e vars' tc.2
          let r := reduce l tc.1 ec.1
          (r, cacheAdd ec.2 (.restrictOp, [.node l t e, vars'], []) r)
        | .leaf b => (.leaf b, c)
  | f, _ => (f, c)
termination_by f.size + vars.size
decreasing_by
  all_goals
    have hsz := restrict_inner_recurse_size _ _ _ _ hri
    subst hf
    simp [Tree.size] at hsz ⊢
    omega

/-- Modelled from the spec: `super::var_level` is not under `src/`.  A
variable edge points to the inner node testing that variable, so its level is
the root node's level. -/
def var_level (v : Tree) : Nat := v.level

/-- First phase of `substitute_prepare`: fill a growable array of optional
replacement edges, mirroring `subst.resize_with(level + 1, || None)` followed
by `subst[level] = Some(r)` for each `(v, r)` pair. -/
def sp_fill : List (Tree × Tree) → List (Option Tree) → List (Option Tree)
  | [], s => s
  | (v, r) :: ps, s =>
    let l := var_level v
    let s' := if s.length ≤ l then s ++ List.replicate (l + 1 - s.length) none
      else s
    sp_fill ps (s'.set l (some r))

/-- Second phase of `substitute_prepare`: the enumerated pass that replaces
each `None` at level `l` by the edge for the variable at that level (the
`get_or_insert(InnerNode::new(level, [⊤, ⊥]))` call); `k` is the index of the
first element. -/
def sp_complete (k : Nat) : List (Option Tree) → List Tree
  | [] => []
  | o :: s => o.getD (.node k (.leaf true) (.leaf false)) :: sp_complete (k + 1) s

/-- Prepare a substitution (source `substitute_prepare`): a dense vector
mapping each level up to the largest substituted level to its replacement
edge, or to the variable at that level when unsubstituted. -/
def substitute_prepare (pairs : List (Tree × Tree)) : List Tree :=
  sp_complete 0 (sp_fill pairs [])

/-- Substitution recursion (source `substitute`), with the apply cache
threaded explicitly and keyed under the `Substitute` operator together with
the substitution's numeric salt (`cache_id`).  The inner `apply_ite` is the
cache-free execution. -/
def substituteC (subst : List Tree) (salt : Nat) (f : Tree) (c : Cache) :
    Tree × Cache :=
  match f with
  | .leaf b => (.leaf b, c)
  | .node l t e =>
    if l < subst.length then
      match cacheGet c (.substituteOp, [.node l t e], [salt]) with
      | some r => (r, c)
      | none =>
        let tc := substituteC subst salt t c
        let ec := substituteC subst salt e tc.2
        let r := apply_ite (subst.getD l (.leaf false)) tc.1 ec.1
        (r, cacheAdd ec.2 (.substituteOp, [.node l t e], [salt]) r)
    else (.node l t e, c)

/-- Satisfaction count of an edge over `V` variables (source
`sat_count_edge`): terminal ⊤ counts `1 << V`, ⊥ counts `0`, an inner node
counts `(count(then) + count(else)) >> 1`.  The per-node memo cache of the
source returns the same numbers and is omitted. -/
def satCount (V : Nat) : Tree → Nat
  | .leaf b => if b then 2 ^ V else 0
  | .node _ t e => (satCount V t + satCount V e) / 2

/-- Every inner-node level of the tree is at least `l`. -/
def minLevelGE (l : Nat) : Tree → Bool
  | .leaf _ => true
  | .node l' t e => decide (l ≤ l') && minLevelGE l t && minLevelGE l e

/-- Every inner-node level of the tree is strictly below `V` (the edge lives
in a manager with `V` levels). -/
def levelsBelow (V : Nat) : Tree → Bool
  | .leaf _ => true
  | .node l t e => decide (l < V) && levelsBelow V t && levelsBelow V e

/-- The strict level order invariant (§3): both children of a node at level
`l` are terminals or have level `> l`. -/
def ordered : Tree → Bool
  | .leaf _ => true
  | .node l t e => minLevelGE (l + 1) t && minLevelGE (l + 1) e &&
      ordered t && ordered e

/-- The no-redundancy invariant (§3): no node has equal children.  Together
with `ordered` and strong canonicalization this characterizes the edges the
engine produces. -/
def reduced : Tree → Bool
  | .leaf _ => true
  | .node _ t e => decide (t ≠ e) && reduced t && reduced e

/-- Whether `r` occurs inside `f` (reflexively); a `Done` result of
`restrict_inner` is such a subtree, i.e. no new node is created. -/
def isSubtree (r : Tree) : Tree → Bool
  | .leaf b => decide (r = .leaf b)
  | .node l t e => decide (r = .node l t e) || isSubtree r t || isSubtree r e

/-- The walk of `pick_cube_edge`'s inner helper: at each node, a ⊥
then-child forces the variable to false (descend else), a ⊥ else-child
forces true (descend then), otherwise the caller-supplied choice function
picks; the chosen polarity is recorded at the node's level. -/
def pickWalk (choice : Tree → Bool) : Tree → List (Option Bool) →
    List (Option Bool)
  | .leaf _, cube => cube
  | .node l t e, cube =>
    let c := if t = .leaf false then false
      else if e = .leaf false then true
      else choice (.node l t e)
    pickWalk choice (if c then t else e) (cube.set l (some c))
termination_by f _ => f.size
decreasing_by
  have ht : t.size < (Tree.node l t e).size := by simp [Tree.size]; omega
  have he : e.size < (Tree.node l t e).size := by simp [Tree.size]; omega
  repeat' split
  all_goals first | exact ht | exact he

/-- Cube picking (source `pick_cube_edge`): `none` iff the function is ⊥; an
all-don't-care cube for ⊤; otherwise walk from the root, then return the
natural-order cube for an empty `order` and the reordered cube otherwise. -/
def pick_cube_edge (numLevels : Nat) (f : Tree) (order : List Tree)
    (choice : Tree → Bool) : Option (List (Option Bool)) :=
  match f with
  | .leaf false => none
  | .leaf true => some (List.replicate numLevels none)
  | .node fl ft fe =>
    let cube := pickWalk choice (.node fl ft fe)
      (List.replicate numLevels none)
    some (if order.length = 0 then cube
      else order.map fun v => cube.getD v.level none)

/-- Build the `values` bit vector of `eval_edge`: all-false of length
`numLevels`, then one `set` per `(edge, value)` pair.  `none` models the
panics: `expect_inner` on a terminal argument edge, and the out-of-bounds
index panic of the bit vector. -/
def buildValues (vs : List Bool) : List (Tree × Bool) → Option (List Bool)
  | [] => some vs
  | (v, b) :: args =>
    match v with
    | .leaf _ => none
    | .node l _ _ =>
      if l < vs.length then buildValues (vs.set l b) args else none

/-- The tail-recursive walk of `eval_edge`: follow `child(0)` when the
stored value at the node's level is true, `child(1)` otherwise; `none`
models the out-of-bounds index panic. -/
def evalWalk : Tree → List Bool → Option Bool
  | .leaf b, _ => some b
  | .node l t e, vs =>
    if h : l < vs.length then
      evalWalk (if vs.get ⟨l, h⟩ then t else e) vs
    else none
termination_by f _ => f.size
decreasing_by
  have ht : t.size < (Tree.node l t e).size := by simp [Tree.size]; omega
  have he : e.size < (Tree.node l t e).size := by simp [Tree.size]; omega
  repeat' split
  all_goals first | exact ht | exact he

/-- Evaluation (source `eval_edge`): build the assignment bit vector from
`args` (missing variables default to false), then walk the DAG. -/
def eval_edge (numLevels : Nat) (f : Tree) (args : List (Tree × Bool)) :
    Option Bool :=
  match buildValues (List.replicate numLevels false) args with
  | none => none
  | some vs => evalWalk f vs

/-- The total assignment that `args` induces: the last value written for a
level wins, and a level no argument mentions is false. -/
def argAssign (args : List (Tree × Bool)) : Nat → Bool :=
  fun l => args.foldl (fun acc p => if p.1.level = l then p.2 else acc) false

/-- Claim C1: `apply_ite` resolves its terminal short-circuits exactly as
specified before any recursion, in cascade order: `g == h` returns
`clone(g)`; `f == g` returns `or(f, h)`; `f == h` returns `and(f, g)`;
terminal `f` returns `clone(g)` for ⊤ and `clone(h)` for ⊥; terminal `g`
with inner `h` returns `or(f, h)` (for `g = ⊤`) or `imp_strict(f, h)` (for
`g = ⊥`); terminal `h` with inner `g` returns `imp(f, g)` (for `h = ⊤`) or
`and(f, g)` (for `h = ⊥`); and with `g`, `h` both terminal and distinct it
returns `not(f)` when `g = ⊥` and `clone(f)` otherwise. -/
theorem ite_terminal_short_circuits :
    (∀ f g h : Tree, g = h → apply_ite f g h = g) ∧
    (∀ f g h : Tree, g ≠ h → f = g → apply_ite f g h = apply_bin .or f h) ∧
    (∀ f g h : Tree, g ≠ h → f ≠ g → f = h →
      apply_ite f g h = apply_bin .and f g) ∧
    (∀ g h : Tree, g ≠ h → Tree.leaf true ≠ g → Tree.leaf true ≠ h →
      apply_ite (.leaf true) g h = g) ∧
    (∀ g h : Tree, g ≠ h → Tree.leaf false ≠ g → Tree.leaf false ≠ h →
      apply_ite (.leaf false) g h = h) ∧
    (∀ (fl : Nat) (ft fe : Tree) (hl : Nat) (ht he : Tree),
      Tree.node fl ft fe ≠ Tree.node hl ht he →
      apply_ite (.node fl ft fe) (.leaf true) (.node hl ht he) =
        apply_bin .or (.node fl ft fe) (.node hl ht he)) ∧
    (∀ (fl : Nat) (ft fe : Tree) (hl : Nat) (ht he : Tree),
      Tree.node fl ft fe ≠ Tree.node hl ht he →
      apply_ite (.node fl ft fe) (.leaf false) (.node hl ht he) =
        apply_bin .impStrict (.node fl ft fe) (.node hl ht he)) ∧
    (∀ (fl : Nat) (ft fe : Tree) (gl : Nat) (gt ge : Tree),
      Tree.node fl ft fe ≠ Tree.node gl gt ge →
      apply_ite (.node fl ft fe) (.node gl gt ge) (.leaf true) =
        apply_bin .imp (.node fl ft fe) (.node gl gt ge)) ∧
    (∀ (fl : Nat) (ft fe : Tree) (gl : Nat) (gt ge : Tree),
      Tree.node fl ft fe ≠ Tree.node gl gt ge →
      apply_ite (.node fl ft fe) (.node gl gt ge) (.leaf false) =
        apply_bin .and (.node fl ft fe) (.node gl gt ge)) ∧
    (∀ (fl : Nat) (ft fe : Tree),
      apply_ite (.node fl ft fe) (.leaf false) (.leaf true) =
        apply_not (.node fl ft fe)) ∧
    (∀ (fl : Nat) (ft fe : Tree),
      apply_ite (.node fl ft fe) (.leaf true) (.leaf false) =
        .node fl ft fe) := by
  refine ⟨?_, ?_, ?_, ?_, ?_, ?_, ?_, ?_, ?_, ?_, ?_⟩
  · intro f g h h1
    rw [apply_ite.eq_def, if_pos h1]
  · intro f g h h1 h2
    rw [apply_ite.eq_def, if_neg h1, if_pos h2]
  · intro f g h h1 h2 h3
    rw [apply_ite.eq_def, if_neg h1, if_neg h2, if_pos h3]
  · intro g h h1 h2 h3
    rw [apply_ite.eq_def, if_neg h1, if_neg h2, if_neg h3]
    rcases g with ⟨gb⟩ | ⟨gl, gt, ge⟩ <;> rcases h with ⟨hb⟩ | ⟨hl, ht, he⟩ <;>
      rfl
  · intro g h h1 h2 h3
    rw [apply_ite.eq_def, if_neg h1, if_neg h2, if_neg h3]
    rcases g with ⟨gb⟩ | ⟨gl, gt, ge⟩ <;> rcases h with ⟨hb⟩ | ⟨hl, ht, he⟩ <;>
      rfl
  · intro fl ft fe hl ht he hne
    rw [apply_ite.eq_def, if_neg (by simp), if_neg (by simp), if_neg hne]
    rfl
  · intro fl ft fe hl ht he hne
    rw [apply_ite.eq_def, if_neg (by simp), if_neg (by simp), if_neg hne]
    rfl
  · intro fl ft fe gl gt ge hne
    rw [apply_ite.eq_def, if_neg (by simp), if_neg hne, if_neg (by simp)]
    rfl
  · intro fl ft fe gl gt ge hne
    rw [apply_ite.eq_def, if_neg (by simp), if_neg hne, if_neg (by simp)]
    rfl
  · intro fl ft fe
    rw [apply_ite.eq_def, if_neg (by simp), if_neg (by simp),
      if_neg (by simp)]
    rfl
  · intro fl ft fe
    rw [apply_ite.eq_def, if_neg (by simp), if_neg (by simp),
      if_neg (by simp)]
    rfl

/-- Witness for C1 at concrete edges: with `f` the variable at level 0 and
`h` the variable at level 1, the `g = ⊤, h` inner case delegates to
`or(f, h)`, and the `g = ⊤, h = ⊥` case returns `clone(f)`. -/
theorem ite_terminal_short_circuits_witness :
    Tree.node 0 (.leaf true) (.leaf false) ≠
      Tree.node 1 (.leaf true) (.leaf false) ∧
    apply_ite (.node 0 (.leaf true) (.leaf false)) (.leaf true)
      (.node 1 (.leaf true) (.leaf false)) =
      apply_bin .or (.node 0 (.leaf true) (.leaf false))
        (.node 1 (.leaf true) (.leaf false)) ∧
    apply_ite (.node 0 (.leaf true) (.leaf false)) (.leaf true)
      (.leaf false) = .node 0 (.leaf true) (.leaf false) :=
  ⟨by decide,
    ite_terminal_short_circuits.2.2.2.2.2.1 0 (.leaf true) (.leaf false) 1
      (.leaf true) (.leaf false) (by decide),
    (ite_terminal_short_circuits.2.2.2.2.2.2.2.2.2.2) 0 (.leaf true)
      (.leaf false)⟩

/-- Claim C7: evaluation is consistent with if-then-else: for all edges
`f`, `g`, `h` and every total assignment `a`,
`eval(ite(f, g, h), a) = if eval(f, a) then eval(g, a) else eval(h, a)`. -/
theorem eval_ite_consistency (f g h : Tree) (a : Nat → Bool) :
    evalA a (apply_ite f g h) =
      if evalA a f then evalA a g else evalA a h :=
  evalA_apply_ite f g h a

theorem apply_not_involution (f : Tree) (hf : reduced f = true) :
    apply_not (apply_not f) = f ∧ reduced (apply_not f) = true := by
  induction f with
  | leaf b => cases b <;> simp [apply_not, reduced]
  | node l t e iht ihe =>
    simp only [reduced, Bool.and_eq_true, decide_eq_true_eq] at hf
    obtain ⟨⟨hne, hrt⟩, hre⟩ := hf
    obtain ⟨ht1, ht2⟩ := iht hrt
    obtain ⟨he1, he2⟩ := ihe hre
    have hnn : apply_not t ≠ apply_not e := by
      intro hc
      apply hne
      rw [← ht1, hc, he1]
    have hstep : apply_not (Tree.node l t e) =
        Tree.node l (apply_not t) (apply_not e) := by
      simp [apply_not, reduce, hnn]
    refine ⟨?_, ?_⟩
    · rw [hstep]
      simp only [apply_not]
      rw [ht1, he1]
      simp [reduce, hne]
    · rw [hstep]
      simp [reduced, hnn, ht2, he2]

theorem cofs_self (l : Nat) (t e : Tree) :
    cofs l (.node l t e) = (t, e) := by
  simp [cofs]

theorem apply_bin_and_self (f : Tree) (hf : reduced f = true) :
    apply_bin .and f f = f := by
  induction f with
  | leaf b => cases b <;> exact apply_bin_eq_done rfl
  | node l t e iht ihe =>
    simp only [reduced, Bool.and_eq_true, decide_eq_true_eq] at hf
    obtain ⟨⟨hne, hrt⟩, hre⟩ := hf
    rw [apply_bin_node_node]
    simp only [Nat.min_self, cofs_self]
    rw [iht hrt, ihe hre]
    simp [reduce, hne]

theorem apply_bin_or_self (f : Tree) (hf : reduced f = true) :
    apply_bin .or f f = f := by
  induction f with
  | leaf b => cases b <;> exact apply_bin_eq_done rfl
  | node l t e iht ihe =>
    simp only [reduced, Bool.and_eq_true, decide_eq_true_eq] at hf
    obtain ⟨⟨hne, hrt⟩, hre⟩ := hf
    rw [apply_bin_node_node]
    simp only [Nat.min_self, cofs_self]
    rw [iht hrt, ihe hre]
    simp [reduce, hne]

theorem apply_bin_xor_self (f : Tree) :
    apply_bin .xor f f = .leaf false := by
  induction f with
  | leaf b =>
    cases b
    · exact apply_bin_eq_done rfl
    · rw [apply_bin_eq_notOf (show terminal_bin .xor (.leaf true) (.leaf true)
        = .notOf (.leaf true) from rfl)]
      rfl
  | node l t e iht ihe =>
    rw [apply_bin_node_node]
    simp only [Nat.min_self, cofs_self]
    rw [iht, ihe]
    rfl

/-- Claim C8: for every edge `f` produced by the engine (i.e. a reduced
tree): `not(not(f)) = f`, `and(f, f) = f`, `or(f, f) = f`, and
`xor(f, f) = ⊥`, where equality is identity of the returned edge's node. -/
theorem engine_algebraic_identities (f : Tree) (hf : reduced f = true) :
    apply_not (apply_not f) = f ∧
    apply_bin .and f f = f ∧
    apply_bin .or f f = f ∧
    apply_bin .xor f f = .leaf false :=
  ⟨(apply_not_involution f hf).1, apply_bin_and_self f hf,
    apply_bin_or_self f hf, apply_bin_xor_self f⟩

/-- Witness for C8 at the variable of level 0. -/
theorem engine_algebraic_identities_witness :
    reduced (Tree.node 0 (.leaf true) (.leaf false)) = true ∧
    apply_not (apply_not (Tree.node 0 (.leaf true) (.leaf false))) =
      Tree.node 0 (.leaf true) (.leaf false) ∧
    apply_bin .and (Tree.node 0 (.leaf true) (.leaf false))
      (Tree.node 0 (.leaf true) (.leaf false)) =
      Tree.node 0 (.leaf true) (.leaf false) :=
  ⟨by decide,
    (engine_algebraic_identities (Tree.node 0 (.leaf true) (.leaf false))
      (by decide)).1,
    (engine_algebraic_identities (Tree.node 0 (.leaf true) (.leaf false))
      (by decide)).2.1⟩

/-- Claim C2: for the unique quantifier (`q = .xor`, i.e. the source's
`Unique` operator): a terminal `f` quantified over inner (non-terminal)
`vars` yields ⊥; and, unlike forall/exist, `unique` does not advance `vars`
past levels above `f`'s top level — when the top level of inner `vars` is
strictly less than the top level of inner `f` it returns ⊥ outright. -/
theorem unique_terminal_and_above_variable :
    (∀ (b : Bool) (vl : Nat) (vt ve : Tree),
      quant .xor (.leaf b) (.node vl vt ve) = .leaf false) ∧
    (∀ (fl : Nat) (ft fe : Tree) (vl : Nat) (vt ve : Tree), vl < fl →
      quant .xor (.node fl ft fe) (.node vl vt ve) = .leaf false) := by
  constructor
  · intro b vl vt ve
    rw [quant.eq_def]
    simp [Tree.isInner]
  · intro fl ft fe vl vt ve hlt
    rw [quant.eq_def]
    simp [hlt]

/-- Witness for C2: `unique(⊤, x0)` and `unique(x1, x0)` are both ⊥. -/
theorem unique_terminal_and_above_variable_witness :
    quant .xor (.leaf true) (.node 0 (.leaf true) (.leaf false)) =
      .leaf false ∧
    (0 < 1 ∧
      quant .xor (.node 1 (.leaf true) (.leaf false))
        (.node 0 (.leaf true) (.leaf false)) = .leaf false) :=
  ⟨unique_terminal_and_above_variable.1 true 0 (.leaf true) (.leaf false),
    by decide,
    unique_terminal_and_above_variable.2 1 (.leaf true) (.leaf false) 0
      (.leaf true) (.leaf false) (by decide)⟩

theorem satCount_dvd (f : Tree) (V : Nat) :
    ∀ l : Nat, ordered f = true → minLevelGE l f = true →
      levelsBelow V f = true → l ≤ V → 2 ^ l ∣ satCount V f := by
  induction f with
  | leaf b =>
    intro l _ _ _ hlV
    cases b
    · simp [satCount]
    · simpa [satCount] using pow_dvd_pow 2 hlV
  | node l0 t e iht ihe =>
    intro l hord hge hb hlV
    simp only [ordered, minLevelGE, levelsBelow, Bool.and_eq_true,
      decide_eq_true_eq] at hord hge hb
    obtain ⟨⟨⟨hmt, hme⟩, hot⟩, hoe⟩ := hord
    obtain ⟨⟨hll0, _⟩, _⟩ := hge
    obtain ⟨⟨hl0V, hbt⟩, hbe⟩ := hb
    have hsucc : l0 + 1 ≤ V := hl0V
    obtain ⟨a, ha⟩ := iht (l0 + 1) hot hmt hbt hsucc
    obtain ⟨b, hbn⟩ := ihe (l0 + 1) hoe hme hbe hsucc
    have hdiv : satCount V (Tree.node l0 t e) = 2 ^ l0 * (a + b) := by
      simp only [satCount, ha, hbn]
      have harith : 2 ^ (l0 + 1) * a + 2 ^ (l0 + 1) * b =
          2 ^ l0 * (a + b) * 2 := by
        ring
      rw [harith]
      omega
    rw [hdiv]
    exact Dvd.dvd.mul_right (pow_dvd_pow 2 hll0) _

theorem apply_not_node_of_reduced (l : Nat) (t e : Tree)
    (h : reduced (Tree.node l t e) = true) :
    apply_not (Tree.node l t e) = Tree.node l (apply_not t) (apply_not e) := by
  simp only [reduced, Bool.and_eq_true, decide_eq_true_eq] at h
  obtain ⟨⟨hne, hrt⟩, hre⟩ := h
  have hnn : apply_not t ≠ apply_not e := by
    intro hc
    have h2 := congrArg apply_not hc
    rw [(apply_not_involution t hrt).1, (apply_not_involution e hre).1] at h2
    exact hne h2
  simp [apply_not, reduce, hnn]

theorem minLevelGE_apply_not (f : Tree) (l : Nat) (hf : reduced f = true) :
    minLevelGE l (apply_not f) = minLevelGE l f := by
  induction f with
  | leaf b => simp [apply_not, minLevelGE]
  | node l0 t e iht ihe =>
    have h := hf
    simp only [reduced, Bool.and_eq_true, decide_eq_true_eq] at h
    obtain ⟨⟨hne, hrt⟩, hre⟩ := h
    rw [apply_not_node_of_reduced l0 t e hf]
    simp [minLevelGE, iht hrt, ihe hre]

theorem levelsBelow_apply_not (f : Tree) (V : Nat) (hf : reduced f = true) :
    levelsBelow V (apply_not f) = levelsBelow V f := by
  induction f with
  | leaf b => simp [apply_not, levelsBelow]
  | node l0 t e iht ihe =>
    have h := hf
    simp only [reduced, Bool.and_eq_true, decide_eq_true_eq] at h
    obtain ⟨⟨hne, hrt⟩, hre⟩ := h
    rw [apply_not_node_of_reduced l0 t e hf]
    simp [levelsBelow, iht hrt, ihe hre]

theorem ordered_apply_not (f : Tree) (hf : reduced f = true) :
    ordered (apply_not f) = ordered f := by
  induction f with
  | leaf b => simp [apply_not, ordered]
  | node l0 t e iht ihe =>
    have h := hf
    simp only [reduced, Bool.and_eq_true, decide_eq_true_eq] at h
    obtain ⟨⟨hne, hrt⟩, hre⟩ := h
    rw [apply_not_node_of_reduced l0 t e hf]
    simp [ordered, iht hrt, ihe hre, minLevelGE_apply_not t _ hrt,
      minLevelGE_apply_not e _ hre]

theorem satCount_not_sum (f : Tree) (V : Nat) (hred : reduced f = true)
    (hord : ordered f = true) (hb : levelsBelow V f = true) :
    satCount V f + satCount V (apply_not f) = 2 ^ V := by
  induction f with
  | leaf b => cases b <;> simp [satCount, apply_not]
  | node l t e iht ihe =>
    have hred' := hred
    simp only [reduced, Bool.and_eq_true, decide_eq_true_eq] at hred'
    obtain ⟨⟨hne, hrt⟩, hre⟩ := hred'
    simp only [ordered, levelsBelow, Bool.and_eq_true,
      decide_eq_true_eq] at hord hb
    obtain ⟨⟨⟨hmt, hme⟩, hot⟩, hoe⟩ := hord
    obtain ⟨⟨hlV, hbt⟩, hbe⟩ := hb
    rw [apply_not_node_of_reduced l t e hred]
    have hst := iht hrt hot hbt
    have hse := ihe hre hoe hbe
    have hdt : 2 ∣ satCount V t := by
      have := satCount_dvd t V (l + 1) hot hmt hbt hlV
      exact dvd_trans (dvd_pow_self 2 (Nat.succ_ne_zero l)) this
    have hde : 2 ∣ satCount V e := by
      have := satCount_dvd e V (l + 1) hoe hme hbe hlV
      exact dvd_trans (dvd_pow_self 2 (Nat.succ_ne_zero l)) this
    have h2V : 2 ∣ 2 ^ V := by
      have hV : V ≠ 0 := by omega
      exact dvd_pow_self 2 hV
    simp only [satCount]
    omega

/-- Claim C5: for every total variable count `V`: `sat_count(⊤, V) = 2^V`,
`sat_count(⊥, V) = 0`, an inner node counts
`(count(then) + count(else)) / 2`, and consequently, for every edge `f` of a
manager with `V` levels (reduced, ordered, all levels below `V`),
`sat_count(not(f), V) = 2^V − sat_count(f, V)`. -/
theorem sat_count_model :
    (∀ V : Nat, satCount V (.leaf true) = 2 ^ V) ∧
    (∀ V : Nat, satCount V (.leaf false) = 0) ∧
    (∀ (V l : Nat) (t e : Tree),
      satCount V (.node l t e) = (satCount V t + satCount V e) / 2) ∧
    (∀ (V : Nat) (f : Tree), reduced f = true → ordered f = true →
      levelsBelow V f = true →
      satCount V (apply_not f) = 2 ^ V - satCount V f) := by
  refine ⟨fun V => by simp [satCount], fun V => by simp [satCount],
    fun V l t e => by simp [satCount], fun V f hred hord hb => ?_⟩
  have := satCount_not_sum f V hred hord hb
  omega

/-- Witness for C5 with `f` the variable at level 0 and `V = 1`:
`sat_count(not(x0), 1) = 2 − sat_count(x0, 1) = 1`. -/
theorem sat_count_model_witness :
    reduced (Tree.node 0 (.leaf true) (.leaf false)) = true ∧
    ordered (Tree.node 0 (.leaf true) (.leaf false)) = true ∧
    levelsBelow 1 (Tree.node 0 (.leaf true) (.leaf false)) = true ∧
    satCount 1 (apply_not (Tree.node 0 (.leaf true) (.leaf false))) =
      2 ^ 1 - satCount 1 (Tree.node 0 (.leaf true) (.leaf false)) :=
  ⟨by decide, by decide, by decide,
    sat_count_model.2.2.2 1 (Tree.node 0 (.leaf true) (.leaf false))
      (by decide) (by decide) (by decide)⟩

theorem isSubtree_refl (f : Tree) : isSubtree f f = true := by
  cases f <;> simp [isSubtree]

theorem isSubtree_trans (a b c : Tree) (h1 : isSubtree a b = true)
    (h2 : isSubtree b c = true) : isSubtree a c = true := by
  induction c with
  | leaf cb =>
    simp only [isSubtree, decide_eq_true_eq] at h2
    subst h2
    exact h1
  | node cl ct ce ihct ihce =>
    simp only [isSubtree, Bool.or_eq_true, decide_eq_true_eq] at h2 ⊢
    rcases h2 with (h2 | h2) | h2
    · subst h2
      simp only [isSubtree, Bool.or_eq_true, decide_eq_true_eq] at h1
      exact h1
    · exact Or.inl (Or.inr (ihct h2))
    · exact Or.inr (ihce h2)

theorem isSubtree_thenC (l : Nat) (t e : Tree) :
    isSubtree t (.node l t e) = true := by
  simp [isSubtree, isSubtree_refl]

theorem isSubtree_elseC (l : Nat) (t e : Tree) :
    isSubtree e (.node l t e) = true := by
  simp [isSubtree, isSubtree_refl]

theorem restrict_inner_done_subtree :
    ∀ (f v r : Tree), restrict_inner f v = .done r → isSubtree r f = true := by
  suffices H : ∀ n (f v r : Tree), f.size + v.size = n →
      restrict_inner f v = .done r → isSubtree r f = true by
    intro f v r
    exact H _ f v r rfl
  intro n
  induction n using Nat.strong_induction_on with
  | _ n ih =>
    intro f v r hn hr
    rw [restrict_inner.eq_def] at hr
    repeat' split at hr
    all_goals first
      | exact RIRes.noConfusion hr
      | (injection hr with h1
         subst h1
         first
           | exact isSubtree_refl _
           | exact isSubtree_thenC _ _ _
           | exact isSubtree_elseC _ _ _)
      | (refine ih _ ?_ _ _ _ rfl hr
         subst hn
         simp [Tree.size]
         omega)
      | (refine isSubtree_trans _ _ _ (ih _ ?_ _ _ _ rfl hr)
          (isSubtree_thenC _ _ _)
         subst hn
         simp [Tree.size]
         omega)
      | (refine isSubtree_trans _ _ _ (ih _ ?_ _ _ _ rfl hr)
          (isSubtree_elseC _ _ _)
         subst hn
         simp [Tree.size]
         omega)

theorem restrict_inner_recurse_shape (f v f' v' : Tree)
    (hr : restrict_inner f v = .recurse f' v') :
    f'.isInner = true ∧ v'.isInner = true := by
  suffices H : ∀ n (f v f' v' : Tree), f.size + v.size = n →
      restrict_inner f v = .recurse f' v' →
      f'.isInner = true ∧ v'.isInner = true by
    exact H _ f v f' v' rfl hr
  intro n
  induction n using Nat.strong_induction_on with
  | _ n ih =>
    intro f v f' v' hn hr
    rw [restrict_inner.eq_def] at hr
    repeat' split at hr
    all_goals first
      | exact RIRes.noConfusion hr
      | (injection hr with h1 h2
         subst h1
         subst h2
         exact ⟨rfl, rfl⟩)
      | (refine ih _ ?_ _ _ _ _ rfl hr
         subst hn
         simp [Tree.size]
         omega)

theorem cacheGet_cacheAdd (c : Cache) (k : CacheKey) (r : Tree) :
    cacheGet (cacheAdd c k r) k = some r := by
  simp [cacheGet, cacheAdd, List.find?]

theorem restrictC_done (fl : Nat) (ft fe : Tree) (vl : Nat) (vt ve : Tree)
    (c : Cache) (r : Tree)
    (h : restrict_inner (.node fl ft fe) (.node vl vt ve) = .done r) :
    restrictC (.node fl ft fe) (.node vl vt ve) c = (r, c) := by
  simp only [restrictC]
  split
  · next r' heq =>
    rw [h] at heq
    injection heq with h1
    subst h1
    rfl
  · next f' v' heq =>
    rw [h] at heq
    exact RIRes.noConfusion heq

theorem restrictC_recurse_hit (fl : Nat) (ft fe : Tree) (vl : Nat)
    (vt ve : Tree) (c : Cache) (f' v' r : Tree)
    (h : restrict_inner (.node fl ft fe) (.node vl vt ve) = .recurse f' v')
    (hc : cacheGet c (.restrictOp, [f', v'], []) = some r) :
    restrictC (.node fl ft fe) (.node vl vt ve) c = (r, c) := by
  simp only [restrictC]
  split
  · next r' heq =>
    rw [h] at heq
    exact RIRes.noConfusion heq
  · next f'' v'' heq =>
    rw [h] at heq
    injection heq with h1 h2
    subst h1
    subst h2
    rw [hc]

theorem restrictC_recurse_miss (fl : Nat) (ft fe : Tree) (vl : Nat)
    (vt ve : Tree) (c : Cache) (l : Nat) (t e : Tree) (v' : Tree)
    (h : restrict_inner (.node fl ft fe) (.node vl vt ve) =
      .recurse (.node l t e) v')
    (hc : cacheGet c (.restrictOp, [.node l t e, v'], []) = none) :
    restrictC (.node fl ft fe) (.node vl vt ve) c =
      (reduce l (restrictC t v' c).1
        (restrictC e v' (restrictC t v' c).2).1,
       cacheAdd (restrictC e v' (restrictC t v' c).2).2
        (.restrictOp, [.node l t e, v'], [])
        (reduce l (restrictC t v' c).1
          (restrictC e v' (restrictC t v' c).2).1)) := by
  simp only [restrictC]
  split
  · next r' heq =>
    rw [h] at heq
    exact RIRes.noConfusion heq
  · next f'' v'' heq =>
    rw [h] at heq
    injection heq with h1 h2
    subst h1
    subst h2
    rw [hc]

/-- Claim C3: `restrict(f, vars)` follows the specified algorithm.  The
tail-recursive `restrict_inner` advances `vars` down the non-⊥ branch while
the top level of `vars` is strictly less (above) than `f`'s; at equal levels
it selects `f`'s then- or else-cofactor according to the literal's polarity
and continues tail-recursively; when the top level of `vars` is strictly
greater (below) than `f`'s it hands back for structural recursion.  A `Done`
result is a subtree of `f` (no node is created) and leaves the threaded
apply cache untouched; the cache probe and install (under the `Restrict`
operator) happen only in the structurally-recursing branch. -/
theorem restrict_algorithm :
    (∀ (fl : Nat) (ft fe : Tree) (vl : Nat) (wl : Nat) (wt we ve : Tree),
      vl < fl →
      restrict_inner (.node fl ft fe) (.node vl (.node wl wt we) ve) =
        restrict_inner (.node fl ft fe) (.node wl wt we)) ∧
    (∀ (fl : Nat) (ft fe : Tree) (vl : Nat) (ve : Tree), vl < fl →
      restrict_inner (.node fl ft fe) (.node vl (.leaf true) ve) =
        .done (.node fl ft fe)) ∧
    (∀ (fl : Nat) (ft fe : Tree) (vl wl : Nat) (wt we : Tree), vl < fl →
      restrict_inner (.node fl ft fe)
          (.node vl (.leaf false) (.node wl wt we)) =
        restrict_inner (.node fl ft fe) (.node wl wt we)) ∧
    (∀ (fl : Nat) (ft fe : Tree) (vl : Nat) (b : Bool), vl < fl →
      restrict_inner (.node fl ft fe) (.node vl (.leaf false) (.leaf b)) =
        .done (.node fl ft fe)) ∧
    (∀ (l al : Nat) (t1 e1 fe : Tree) (wl : Nat) (wt we ve : Tree),
      restrict_inner (.node l (.node al t1 e1) fe)
          (.node l (.node wl wt we) ve) =
        restrict_inner (.node al t1 e1) (.node wl wt we)) ∧
    (∀ (l : Nat) (b : Bool) (fe : Tree) (wl : Nat) (wt we ve : Tree),
      restrict_inner (.node l (.leaf b) fe) (.node l (.node wl wt we) ve) =
        .done (.leaf b)) ∧
    (∀ (l : Nat) (ft fe ve : Tree),
      restrict_inner (.node l ft fe) (.node l (.leaf true) ve) = .done ft) ∧
    (∀ (l : Nat) (ft : Tree) (al : Nat) (t1 e1 : Tree) (wl : Nat)
        (wt we : Tree),
      restrict_inner (.node l ft (.node al t1 e1))
          (.node l (.leaf false) (.node wl wt we)) =
        restrict_inner (.node al t1 e1) (.node wl wt we)) ∧
    (∀ (l : Nat) (ft : Tree) (b : Bool) (wl : Nat) (wt we : Tree),
      restrict_inner (.node l ft (.leaf b))
          (.node l (.leaf false) (.node wl wt we)) = .done (.leaf b)) ∧
    (∀ (l : Nat) (ft fe : Tree) (b : Bool),
      restrict_inner (.node l ft fe) (.node l (.leaf false) (.leaf b)) =
        .done fe) ∧
    (∀ (fl : Nat) (ft fe : Tree) (vl : Nat) (vt ve : Tree), fl < vl →
      restrict_inner (.node fl ft fe) (.node vl vt ve) =
        .recurse (.node fl ft fe) (.node vl vt ve)) ∧
    (∀ f v r : Tree, restrict_inner f v = .done r → isSubtree r f = true) ∧
    (∀ (fl : Nat) (ft fe : Tree) (vl : Nat) (vt ve : Tree) (c : Cache)
        (r : Tree),
      restrict_inner (.node fl ft fe) (.node vl vt ve) = .done r →
      restrictC (.node fl ft fe) (.node vl vt ve) c = (r, c)) ∧
    (∀ (fl : Nat) (ft fe : Tree) (vl : Nat) (vt ve : Tree) (c : Cache)
        (f' v' r : Tree),
      restrict_inner (.node fl ft fe) (.node vl vt ve) = .recurse f' v' →
      cacheGet c (.restrictOp, [f', v'], []) = some r →
      restrictC (.node fl ft fe) (.node vl vt ve) c = (r, c)) ∧
    (∀ (fl : Nat) (ft fe : Tree) (vl : Nat) (vt ve : Tree) (c : Cache)
        (f' v' : Tree),
      restrict_inner (.node fl ft fe) (.node vl vt ve) = .recurse f' v' →
      cacheGet c (.restrictOp, [f', v'], []) = none →
      cacheGet (restrictC (.node fl ft fe) (.node vl vt ve) c).2
          (.restrictOp, [f', v'], []) =
        some (restrictC (.node fl ft fe) (.node vl vt ve) c).1) := by
  refine ⟨?_, ?_, ?_, ?_, ?_, ?_, ?_, ?_, ?_, ?_, ?_, ?_, ?_, ?_, ?_⟩
  · intro fl ft fe vl wl wt we ve hlt
    rw [restrict_inner.eq_def]
    simp only
    rw [if_neg (Nat.lt_asymm hlt), if_pos hlt]
  · intro fl ft fe vl ve hlt
    rw [restrict_inner.eq_def]
    simp only
    rw [if_neg (Nat.lt_asymm hlt), if_pos hlt]
  · intro fl ft fe vl wl wt we hlt
    rw [restrict_inner.eq_def]
    simp only
    rw [if_neg (Nat.lt_asymm hlt), if_pos hlt]
  · intro fl ft fe vl b hlt
    rw [restrict_inner.eq_def]
    simp only
    rw [if_neg (Nat.lt_asymm hlt), if_pos hlt]
  · intro l al t1 e1 fe wl wt we ve
    rw [restrict_inner.eq_def]
    simp only
    rw [if_neg (lt_irrefl _), if_neg (lt_irrefl _)]
  · intro l b fe wl wt we ve
    rw [restrict_inner.eq_def]
    simp only
    rw [if_neg (lt_irrefl _), if_neg (lt_irrefl _)]
  · intro l ft fe ve
    rw [restrict_inner.eq_def]
    simp only
    rw [if_neg (lt_irrefl _), if_neg (lt_irrefl _)]
  · intro l ft al t1 e1 wl wt we
    rw [restrict_inner.eq_def]
    simp only
    rw [if_neg (lt_irrefl _), if_neg (lt_irrefl _)]
  · intro l ft b wl wt we
    rw [restrict_inner.eq_def]
    simp only
    rw [if_neg (lt_irrefl _), if_neg (lt_irrefl _)]
  · intro l ft fe b
    rw [restrict_inner.eq_def]
    simp only
    rw [if_neg (lt_irrefl _), if_neg (lt_irrefl _)]
  · intro fl ft fe vl vt ve hlt
    rw [restrict_inner.eq_def]
    simp only
    rw [if_pos hlt]
  · exact restrict_inner_done_subtree
  · intro fl ft fe vl vt ve c r h
    exact restrictC_done fl ft fe vl vt ve c r h
  · intro fl ft fe vl vt ve c f' v' r h hc
    exact restrictC_recurse_hit fl ft fe vl vt ve c f' v' r h hc
  · intro fl ft fe vl vt ve c f' v' h hc
    obtain ⟨hfi, _⟩ := restrict_inner_recurse_shape _ _ _ _ h
    rcases f' with ⟨fb⟩ | ⟨l, t, e⟩
    · exact absurd hfi (by simp [Tree.isInner])
    · rw [restrictC_recurse_miss fl ft fe vl vt ve c l t e v' h hc]
      exact cacheGet_cacheAdd _ _ _

/-- Witness for C3: restricting `x1` by the cube `x0` (a level-0 positive
literal) first advances `vars`; restricting `x0` (then-child ⊤) by the cube
`x1` hands back for structural recursion, and on an empty cache the result
is installed under the `Restrict` key. -/
theorem restrict_algorithm_witness :
    (0 < 1 ∧
      restrict_inner (.node 1 (.leaf true) (.leaf false))
          (.node 0 (.node 2 (.leaf true) (.leaf false)) (.leaf false)) =
        restrict_inner (.node 1 (.leaf true) (.leaf false))
          (.node 2 (.leaf true) (.leaf false))) ∧
    (0 < 1 ∧
      restrict_inner (.node 0 (.leaf true) (.leaf false))
          (.node 1 (.leaf true) (.leaf false)) =
        .recurse (.node 0 (.leaf true) (.leaf false))
          (.node 1 (.leaf true) (.leaf false))) ∧
    cacheGet (restrictC (.node 0 (.leaf true) (.leaf false))
        (.node 1 (.leaf true) (.leaf false)) []).2
      (.restrictOp, [.node 0 (.leaf true) (.leaf false),
        .node 1 (.leaf true) (.leaf false)], []) =
      some (restrictC (.node 0 (.leaf true) (.leaf false))
        (.node 1 (.leaf true) (.leaf false)) []).1 :=
  ⟨⟨by decide, restrict_algorithm.1 1 (.leaf true) (.leaf false) 0 2
      (.leaf true) (.leaf false) (.leaf false) (by decide)⟩,
   ⟨by decide, (restrict_algorithm.2.2.2.2.2.2.2.2.2.2.1) 0 (.leaf true)
      (.leaf false) 1 (.leaf true) (.leaf false) (by decide)⟩,
   (restrict_algorithm.2.2.2.2.2.2.2.2.2.2.2.2.2.2) 0 (.leaf true)
      (.leaf false) 1 (.leaf true) (.leaf false) []
      (.node 0 (.leaf true) (.leaf false))
      (.node 1 (.leaf true) (.leaf false))
      ((restrict_algorithm.2.2.2.2.2.2.2.2.2.2.1) 0 (.leaf true)
        (.leaf false) 1 (.leaf true) (.leaf false) (by decide)) rfl⟩

theorem sp_fill_length (ps : List (Tree × Tree)) :
    ∀ s : List (Option Tree), (sp_fill ps s).length =
      ps.foldl (fun n p => max n (var_level p.1 + 1)) s.length := by
  induction ps with
  | nil => intro s; rfl
  | cons p ps ih =>
    intro s
    obtain ⟨v, r⟩ := p
    rw [sp_fill, List.foldl_cons, ih, List.length_set]
    congr 1
    dsimp only
    split
    · simp only [List.length_append, List.length_replicate]
      omega
    · omega

theorem sp_fill_length_mono (ps : List (Tree × Tree)) :
    ∀ s : List (Option Tree), s.length ≤ (sp_fill ps s).length := by
  induction ps with
  | nil => intro s; exact Nat.le_refl _
  | cons p ps ih =>
    intro s
    obtain ⟨v, r⟩ := p
    rw [sp_fill]
    refine le_trans ?_ (ih _)
    simp only [List.length_set]
    split
    · simp only [List.length_append, List.length_replicate]
      omega
    · omega

theorem sp_step_length (s : List (Option Tree)) (lv : Nat) (r : Tree) :
    ((if s.length ≤ lv then s ++ List.replicate (lv + 1 - s.length) none
      else s).set lv (some r)).length = max s.length (lv + 1) := by
  rw [List.length_set]
  split
  · simp only [List.length_append, List.length_replicate]
    omega
  · omega

theorem sp_step_get (s : List (Option Tree)) (lv : Nat) (r : Tree) (l : Nat)
    (hne : l ≠ lv) :
    ((if s.length ≤ lv then s ++ List.replicate (lv + 1 - s.length) none
      else s).set lv (some r))[l]? =
      if l < s.length then s[l]?
      else if l < max s.length (lv + 1) then some none else none := by
  rw [List.getElem?_set_ne (Ne.symm hne)]
  split
  · next hext =>
    rw [List.getElem?_append]
    by_cases h1 : l < s.length
    · rw [if_pos h1, if_pos h1]
    · rw [if_neg h1, if_neg h1, List.getElem?_replicate]
      by_cases h2 : l < max s.length (lv + 1)
      · rw [if_pos h2, if_pos (by omega)]
      · rw [if_neg h2, if_neg (by omega)]
  · next hext =>
    by_cases h1 : l < s.length
    · rw [if_pos h1]
    · rw [if_neg h1, if_neg (by omega), List.getElem?_eq_none (by omega)]

theorem sp_step_get_self (s : List (Option Tree)) (lv : Nat) (r : Tree) :
    ((if s.length ≤ lv then s ++ List.replicate (lv + 1 - s.length) none
      else s).set lv (some r))[lv]? = some (some r) := by
  apply List.getElem?_set_eq_of_lt
  split
  · simp only [List.length_append, List.length_replicate]
    omega
  · omega

theorem sp_fill_get_notmem (ps : List (Tree × Tree)) :
    ∀ (s : List (Option Tree)) (l : Nat),
      (∀ p ∈ ps, var_level p.1 ≠ l) →
      (sp_fill ps s)[l]? =
        if l < (sp_fill ps s).length then
          (if l < s.length then s[l]? else some none)
        else none := by
  induction ps with
  | nil =>
    intro s l _
    rw [sp_fill]
    by_cases h : l < s.length
    · rw [if_pos h, if_pos h]
    · rw [if_neg h]
      exact List.getElem?_eq_none (by omega)
  | cons p ps ih =>
    intro s l hne
    obtain ⟨v, r⟩ := p
    have hvl : var_level v ≠ l := hne (v, r) (List.mem_cons_self _ _)
    have hne' : ∀ p ∈ ps, var_level p.1 ≠ l := fun p hp =>
      hne p (List.mem_cons_of_mem _ hp)
    rw [sp_fill]
    rw [ih _ l hne']
    congr 1
    have hlen := sp_step_length s (var_level v) r
    have hget := sp_step_get s (var_level v) r l (Ne.symm hvl)
    by_cases h1 : l < s.length
    · rw [if_pos h1, if_pos (by omega), hget, if_pos h1]
    · rw [if_neg h1]
      by_cases h2 : l <
          ((if s.length ≤ var_level v then
            s ++ List.replicate (var_level v + 1 - s.length) none
          else s).set (var_level v) (some r)).length
      · rw [if_pos h2, hget, if_neg h1, if_pos (by omega)]
      · rw [if_neg h2]

theorem sp_fill_get_mem (ps : List (Tree × Tree)) :
    ∀ (s : List (Option Tree)) (v r : Tree),
      (ps.map fun p => var_level p.1).Nodup → (v, r) ∈ ps →
      (sp_fill ps s)[var_level v]? = some (some r) := by
  induction ps with
  | nil =>
    intro s v r _ hmem
    exact absurd hmem (List.not_mem_nil _)
  | cons p ps ih =>
    intro s v r hnd hmem
    obtain ⟨v0, r0⟩ := p
    rw [List.map_cons, List.nodup_cons] at hnd
    obtain ⟨hnotin, hnd'⟩ := hnd
    rcases List.mem_cons.mp hmem with heq | hmem'
    · injection heq with h1 h2
      subst h1
      subst h2
      rw [sp_fill]
      have hnotin' : ∀ p ∈ ps, var_level p.1 ≠ var_level v := by
        intro p hp hc
        exact hnotin (List.mem_map.mpr ⟨p, hp, hc⟩)
      rw [sp_fill_get_notmem ps _ _ hnotin']
      have hlen := sp_step_length s (var_level v) r
      have hmono := sp_fill_length_mono ps
        ((if s.length ≤ var_level v then
          s ++ List.replicate (var_level v + 1 - s.length) none
        else s).set (var_level v) (some r))
      rw [if_pos (by omega), if_pos (by omega)]
      exact sp_step_get_self s (var_level v) r
    · rw [sp_fill]
      exact ih _ v r hnd' hmem'

theorem sp_complete_length (s : List (Option Tree)) :
    ∀ k : Nat, (sp_complete k s).length = s.length := by
  induction s with
  | nil => intro k; rfl
  | cons o s ih =>
    intro k
    rw [sp_complete, List.length_cons, List.length_cons, ih]

theorem sp_complete_get (s : List (Option Tree)) :
    ∀ (k l : Nat), (sp_complete k s)[l]? =
      (s[l]?).map fun o =>
        o.getD (.node (k + l) (.leaf true) (.leaf false)) := by
  induction s with
  | nil => intro k l; rfl
  | cons o s ih =>
    intro k l
    rw [sp_complete]
    cases l with
    | zero => simp
    | succ l =>
      simp only [List.getElem?_cons_succ]
      rw [ih (k + 1) l]
      have : k + 1 + l = k + (l + 1) := by omega
      rw [this]

/-- Claim C4: `substitute(f, σ)` follows the specified algorithm.
Preparation builds a dense replacement array: every level in the domain of σ
holds its replacement edge, every level up to `L_max` not in the domain
holds the BDD of the variable at that level, and the array's length is
`L_max + 1`.  The recursion returns `clone(f)` when `f` is terminal or its
level exceeds `L_max`; otherwise, on a cache miss, it combines the
recursively substituted cofactors via
`ite(replacement[level(f)], sub_then, sub_else)` and installs the result in
the apply cache keyed by the `Substitute` operator and the substitution's
numeric salt; on a hit it returns the cached edge. -/
theorem substitute_algorithm :
    (∀ (pairs : List (Tree × Tree)) (v r : Tree),
      (pairs.map fun p => var_level p.1).Nodup → (v, r) ∈ pairs →
      (substitute_prepare pairs)[var_level v]? = some r) ∧
    (∀ (pairs : List (Tree × Tree)) (l : Nat),
      l < (substitute_prepare pairs).length →
      (∀ p ∈ pairs, var_level p.1 ≠ l) →
      (substitute_prepare pairs)[l]? =
        some (.node l (.leaf true) (.leaf false))) ∧
    (∀ pairs : List (Tree × Tree),
      (substitute_prepare pairs).length =
        pairs.foldl (fun n p => max n (var_level p.1 + 1)) 0) ∧
    (∀ (subst : List Tree) (salt : Nat) (b : Bool) (c : Cache),
      substituteC subst salt (.leaf b) c = (.leaf b, c)) ∧
    (∀ (subst : List Tree) (salt l : Nat) (t e : Tree) (c : Cache),
      subst.length ≤ l →
      substituteC subst salt (.node l t e) c = (.node l t e, c)) ∧
    (∀ (subst : List Tree) (salt l : Nat) (t e : Tree) (c : Cache)
        (r : Tree), l < subst.length →
      cacheGet c (.substituteOp, [.node l t e], [salt]) = some r →
      substituteC subst salt (.node l t e) c = (r, c)) ∧
    (∀ (subst : List Tree) (salt l : Nat) (t e : Tree) (c : Cache),
      l < subst.length →
      cacheGet c (.substituteOp, [.node l t e], [salt]) = none →
      (substituteC subst salt (.node l t e) c).1 =
        apply_ite (subst.getD l (.leaf false))
          (substituteC subst salt t c).1
          (substituteC subst salt e (substituteC subst salt t c).2).1 ∧
      cacheGet (substituteC subst salt (.node l t e) c).2
          (.substituteOp, [.node l t e], [salt]) =
        some (substituteC subst salt (.node l t e) c).1) := by
  refine ⟨?_, ?_, ?_, ?_, ?_, ?_, ?_⟩
  · intro pairs v r hnd hmem
    rw [substitute_prepare, sp_complete_get, sp_fill_get_mem pairs [] v r hnd hmem]
    rfl
  · intro pairs l hlen hne
    rw [substitute_prepare, sp_complete_length] at hlen
    rw [substitute_prepare, sp_complete_get, sp_fill_get_notmem pairs [] l hne,
      if_pos hlen]
    simp
  · intro pairs
    rw [substitute_prepare, sp_complete_length, sp_fill_length]
    rfl
  · intro subst salt b c
    rfl
  · intro subst salt l t e c hge
    simp only [substituteC]
    rw [if_neg (by omega)]
  · intro subst salt l t e c r hlt hc
    simp only [substituteC]
    rw [if_pos hlt, hc]
  · intro subst salt l t e c hlt hc
    constructor
    · simp only [substituteC]
      rw [if_pos hlt, hc]
    · simp only [substituteC]
      rw [if_pos hlt, hc]
      exact cacheGet_cacheAdd _ _ _

/-- Witness for C4 with σ = { x0 ↦ x2 }: the prepared array maps level 0 to
`x2`; substituting in `x0` (inner, level 0, empty cache) combines via
`apply_ite` and installs the result under the salted `Substitute` key. -/
theorem substitute_algorithm_witness :
    ([(Tree.node 0 (.leaf true) (.leaf false),
        Tree.node 2 (.leaf true) (.leaf false))].map
      (fun p => var_level p.1)).Nodup ∧
    (substitute_prepare [(Tree.node 0 (.leaf true) (.leaf false),
        Tree.node 2 (.leaf true) (.leaf false))])[0]? =
      some (Tree.node 2 (.leaf true) (.leaf false)) ∧
    (substituteC [Tree.node 2 (.leaf true) (.leaf false)] 7
        (.node 0 (.leaf true) (.leaf false)) []).1 =
      apply_ite ([Tree.node 2 (.leaf true) (.leaf false)].getD 0 (.leaf false))
        (substituteC [Tree.node 2 (.leaf true) (.leaf false)] 7 (.leaf true)
          []).1
        (substituteC [Tree.node 2 (.leaf true) (.leaf false)] 7 (.leaf false)
          (substituteC [Tree.node 2 (.leaf true) (.leaf false)] 7 (.leaf true)
            []).2).1 :=
  ⟨by decide,
    substitute_algorithm.1 [(Tree.node 0 (.leaf true) (.leaf false),
        Tree.node 2 (.leaf true) (.leaf false))]
      (Tree.node 0 (.leaf true) (.leaf false))
      (Tree.node 2 (.leaf true) (.leaf false)) (by decide)
      (List.mem_singleton.mpr rfl),
    (substitute_algorithm.2.2.2.2.2.2 [Tree.node 2 (.leaf true) (.leaf false)]
      7 0 (.leaf true) (.leaf false) [] (by decide) rfl).1⟩

/-- Claim C6: `pick_cube(f, order, choice)` returns no cube exactly when
`f = ⊥`, and an all-don't-care cube of length `num_levels()` when `f = ⊤`;
for inner nodes the walk forces false and descends to else when the
then-child is ⊥, forces true and descends to then when the else-child is ⊥,
and otherwise lets the caller-supplied choice function pick the branch; with
an empty order the cube is returned in natural level order, and with a
non-empty order it is reordered to the given variable order. -/
theorem pick_cube_spec :
    (∀ (numLevels : Nat) (f : Tree) (order : List Tree)
        (choice : Tree → Bool),
      pick_cube_edge numLevels f order choice = none ↔ f = .leaf false) ∧
    (∀ (numLevels : Nat) (order : List Tree) (choice : Tree → Bool),
      pick_cube_edge numLevels (.leaf true) order choice =
        some (List.replicate numLevels none)) ∧
    (∀ (choice : Tree → Bool) (l : Nat) (t e : Tree)
        (cube : List (Option Bool)),
      (t = .leaf false →
        pickWalk choice (.node l t e) cube =
          pickWalk choice e (cube.set l (some false))) ∧
      (t ≠ .leaf false → e = .leaf false →
        pickWalk choice (.node l t e) cube =
          pickWalk choice t (cube.set l (some true))) ∧
      (t ≠ .leaf false → e ≠ .leaf false →
        pickWalk choice (.node l t e) cube =
          pickWalk choice (if choice (.node l t e) then t else e)
            (cube.set l (some (choice (.node l t e)))))) ∧
    (∀ (numLevels fl : Nat) (ft fe : Tree) (choice : Tree → Bool),
      pick_cube_edge numLevels (.node fl ft fe) [] choice =
        some (pickWalk choice (.node fl ft fe)
          (List.replicate numLevels none))) ∧
    (∀ (numLevels fl : Nat) (ft fe : Tree) (order : List Tree)
        (choice : Tree → Bool), order ≠ [] →
      (∀ v ∈ order, v.isInner = true) →
      pick_cube_edge numLevels (.node fl ft fe) order choice =
        some (order.map fun v =>
          (pickWalk choice (.node fl ft fe)
            (List.replicate numLevels none)).getD v.level none)) := by
  refine ⟨?_, ?_, ?_, ?_, ?_⟩
  · intro n f o ch
    constructor
    · intro h
      rcases f with ⟨_ | _⟩ | ⟨l, t, e⟩
      · rfl
      · exact absurd h (by simp [pick_cube_edge])
      · exact absurd h (by simp [pick_cube_edge])
    · intro h
      subst h
      rfl
  · intro n o ch
    rfl
  · intro ch l t e cube
    refine ⟨?_, ?_, ?_⟩
    · intro ht
      subst ht
      rw [pickWalk.eq_def]
      simp
    · intro ht he
      subst he
      rw [pickWalk.eq_def]
      simp only
      rw [if_neg ht]
      simp
    · intro ht he
      rw [pickWalk.eq_def]
      simp only
      rw [if_neg ht, if_neg he]
  · intro n fl ft fe ch
    rfl
  · intro n fl ft fe o ch h _
    simp only [pick_cube_edge]
    rw [if_neg (fun hc => h (List.length_eq_zero.mp hc))]

/-- Witness for C6: `pick_cube` on ⊥ yields no cube, on ⊤ the all-don't-care
cube; on the node testing level 0 with then-child ⊥ the walk forces level 0
to false and descends to the else-child. -/
theorem pick_cube_spec_witness :
    pick_cube_edge 2 (.leaf false) [] (fun _ => false) = none ∧
    pick_cube_edge 2 (.leaf true) [] (fun _ => false) =
      some (List.replicate 2 none) ∧
    pickWalk (fun _ => false)
        (.node 0 (.leaf false) (.node 1 (.leaf true) (.leaf false)))
        (List.replicate 2 none) =
      pickWalk (fun _ => false) (.node 1 (.leaf true) (.leaf false))
        ((List.replicate 2 none).set 0 (some false)) :=
  ⟨(pick_cube_spec.1 2 (.leaf false) [] (fun _ => false)).mpr rfl,
    pick_cube_spec.2.1 2 [] (fun _ => false),
    (pick_cube_spec.2.2.1 (fun _ => false) 0 (.leaf false)
      (.node 1 (.leaf true) (.leaf false)) (List.replicate 2 none)).1 rfl⟩

theorem evalA_congr (f : Tree) (a a' : Nat → Bool)
    (h : ∀ l : Nat, a l = a' l) : evalA a f = evalA a' f := by
  induction f with
  | leaf b => rfl
  | node l t e iht ihe => simp only [evalA, h l, iht, ihe]

theorem buildValues_none (args : List (Tree × Bool)) :
    ∀ vs : List Bool, (∃ p ∈ args, p.1.isInner = false) →
      buildValues vs args = none := by
  induction args with
  | nil =>
    intro vs h
    obtain ⟨p, hp, _⟩ := h
    exact absurd hp (List.not_mem_nil _)
  | cons q args ih =>
    intro vs h
    obtain ⟨v, b⟩ := q
    rcases v with ⟨vb⟩ | ⟨l, t, e⟩
    · rfl
    · rw [buildValues]
      split
      · obtain ⟨p, hp, hterm⟩ := h
        rcases List.mem_cons.mp hp with heq | hmem
        · subst heq
          exact absurd hterm (by simp [Tree.isInner])
        · exact ih _ ⟨p, hmem, hterm⟩
      · rfl

theorem buildValues_some (args : List (Tree × Bool)) :
    ∀ vs : List Bool,
      (∀ p ∈ args, p.1.isInner = true ∧ p.1.level < vs.length) →
      ∃ vs', buildValues vs args = some vs' ∧ vs'.length = vs.length ∧
        ∀ l : Nat, vs'.getD l false = args.foldl
          (fun acc p => if p.1.level = l then p.2 else acc)
          (vs.getD l false) := by
  induction args with
  | nil =>
    intro vs _
    exact ⟨vs, rfl, rfl, fun l => rfl⟩
  | cons q args ih =>
    intro vs h
    obtain ⟨v, b⟩ := q
    obtain ⟨hinner, hlev⟩ := h (v, b) (List.mem_cons_self _ _)
    rcases v with ⟨vb⟩ | ⟨lv, t, e⟩
    · exact absurd hinner (by simp [Tree.isInner])
    · simp only [Tree.level] at hlev
      rw [buildValues, if_pos hlev]
      obtain ⟨vs', heq, hlen, hget⟩ := ih (vs.set lv b) (by
        intro p hp
        have := h p (List.mem_cons_of_mem _ hp)
        simpa [List.length_set] using this)
      refine ⟨vs', heq, by simpa [List.length_set] using hlen, ?_⟩
      intro l
      rw [hget l, List.foldl_cons]
      congr 1
      dsimp only [Tree.level]
      rw [List.getD_eq_getElem?_getD, List.getD_eq_getElem?_getD]
      by_cases hl : lv = l
      · subst hl
        rw [List.getElem?_set_eq_of_lt b hlev, if_pos rfl]
        rfl
      · rw [List.getElem?_set_ne hl, if_neg hl]

theorem evalWalk_some (f : Tree) :
    ∀ (n : Nat) (vs : List Bool), levelsBelow n f = true → vs.length = n →
      evalWalk f vs = some (evalA (fun l => vs.getD l false) f) := by
  induction f with
  | leaf b => intro n vs _ _; simp [evalWalk, evalA]
  | node l t e iht ihe =>
    intro n vs hb hlen
    simp only [levelsBelow, Bool.and_eq_true, decide_eq_true_eq] at hb
    obtain ⟨⟨hl, hbt⟩, hbe⟩ := hb
    have hl' : l < vs.length := by omega
    rw [evalWalk, dif_pos hl']
    have hval : vs.get ⟨l, hl'⟩ = vs.getD l false := by
      rw [List.getD_eq_getElem?_getD, List.getElem?_eq_getElem hl']
      rfl
    simp only [evalA]
    rw [hval]
    by_cases hv : vs.getD l false = true
    · simp only [hv, if_true]
      exact iht n vs hbt hlen
    · simp only [Bool.not_eq_true] at hv
      simp only [hv]
      rw [if_neg (by simp), if_neg (by simp)]
      exact ihe n vs hbe hlen

/-- Claim C9: if any edge in `eval`'s assignment refers to a terminal, the
evaluation fails loudly (`expect_inner` panics, modelled as `none`); for
every assignment whose edges all refer to inner nodes (of a manager with `n`
levels, so their levels and `f`'s are below `n`), `eval` returns normally. -/
theorem eval_inner_node_arguments :
    (∀ (n : Nat) (f : Tree) (args : List (Tree × Bool)),
      (∃ p ∈ args, p.1.isInner = false) → eval_edge n f args = none) ∧
    (∀ (n : Nat) (f : Tree) (args : List (Tree × Bool)),
      (∀ p ∈ args, p.1.isInner = true ∧ p.1.level < n) →
      levelsBelow n f = true → (eval_edge n f args).isSome = true) := by
  constructor
  · intro n f args h
    rw [eval_edge, buildValues_none args _ h]
  · intro n f args hargs hb
    obtain ⟨vs', heq, hlen, _⟩ := buildValues_some args
      (List.replicate n false) (by simpa using hargs)
    rw [eval_edge, heq]
    show (evalWalk f vs').isSome = true
    rw [evalWalk_some f n vs' hb (by simpa using hlen)]
    rfl

/-- Witness for C9: an assignment containing the terminal edge ⊤ makes
`eval` fail, while the assignment `{x0 ↦ true}` on `f = x0` succeeds. -/
theorem eval_inner_node_arguments_witness :
    eval_edge 1 (.node 0 (.leaf true) (.leaf false)) [(.leaf true, true)] =
      none ∧
    (eval_edge 1 (.node 0 (.leaf true) (.leaf false))
      [(.node 0 (.leaf true) (.leaf false), true)]).isSome = true :=
  ⟨eval_inner_node_arguments.1 1 (.node 0 (.leaf true) (.leaf false))
      [(.leaf true, true)] ⟨(.leaf true, true), by decide, by decide⟩,
    eval_inner_node_arguments.2 1 (.node 0 (.leaf true) (.leaf false))
      [(.node 0 (.leaf true) (.leaf false), true)] (by decide) (by decide)⟩

/-- Claim C10: `eval` treats missing variables as false: for every edge `f`
and every (possibly partial) assignment list, evaluation equals `evalA`
under the total assignment extending the arguments by false (`argAssign`),
and a level no argument mentions is assigned false.  In particular `eval`
never fails because a variable of `f` is missing from the assignment. -/
theorem eval_missing_defaults_false :
    (∀ (n : Nat) (f : Tree) (args : List (Tree × Bool)),
      (∀ p ∈ args, p.1.isInner = true ∧ p.1.level < n) →
      levelsBelow n f = true →
      eval_edge n f args = some (evalA (argAssign args) f)) ∧
    (∀ (args : List (Tree × Bool)) (l : Nat),
      (∀ p ∈ args, p.1.level ≠ l) → argAssign args l = false) := by
  constructor
  · intro n f args hargs hb
    obtain ⟨vs', heq, hlen, hget⟩ := buildValues_some args
      (List.replicate n false) (by simpa using hargs)
    rw [eval_edge, heq]
    show evalWalk f vs' = _
    rw [evalWalk_some f n vs' hb (by simpa using hlen)]
    congr 1
    apply evalA_congr
    intro l
    rw [hget l]
    simp only [argAssign]
    congr 1
    rw [List.getD_eq_getElem?_getD, List.getElem?_replicate]
    split <;> rfl
  · intro args l h
    induction args with
    | nil => rfl
    | cons p args ih =>
      simp only [argAssign, List.foldl_cons] at ih ⊢
      rw [if_neg (h p (List.mem_cons_self _ _))]
      exact ih fun q hq => h q (List.mem_cons_of_mem _ hq)

/-- Witness for C10: evaluating `x0` under the empty assignment defaults
`x0` to false, and under `{x0 ↦ true}` level 1 is still false. -/
theorem eval_missing_defaults_false_witness :
    eval_edge 1 (.node 0 (.leaf true) (.leaf false)) [] =
      some (evalA (argAssign []) (.node 0 (.leaf true) (.leaf false))) ∧
    argAssign [(Tree.node 0 (.leaf true) (.leaf false), true)] 1 = false :=
  ⟨eval_missing_defaults_false.1 1 (.node 0 (.leaf true) (.leaf false)) []
      (by decide) (by decide),
    eval_missing_defaults_false.2
      [(Tree.node 0 (.leaf true) (.leaf false), true)] 1 (by decide)⟩

end OxiddBDD
